import Mathlib

/-!
Shallow embedding of the module-resolution and dependency-graph core of
`crates/turbopack/src/lib.rs`: the module rule engine and module factory
(`module`), the `ModuleAssetContext` with its `with_*` derivations and
`process`/`resolve_asset` operations, the back-reference analyzer
(`compute_back_references`, `top_references`) and the scoped emission
pipeline (`emit_aggregated_assets` / `emit_asset_into_dir`).

External collaborators (filesystem paths, environments, the module-options
configuration, the per-filetype asset constructors, transitions and the
resolver) are modelled from the specification; the functions of the shown
core are translated directly from the source.
-/

namespace Turbopack

/-! ## Filesystem collaborator -/

/-- Modelled from the spec: a filesystem path, as its list of `/`-separated
components (so `/out/a.js` is `["out", "a.js"]`). -/
abbrev FSPath := List String

/-- Modelled from the spec: parent-directory navigation (`path.parent()`)
from the filesystem collaborator — drop the last component. -/
def parentPath (p : FSPath) : FSPath :=
  p.dropLast

/-- Modelled from the spec: the path containment test `is_inside(dir)` of
the filesystem collaborator — the path lies strictly inside the directory,
i.e. the directory's components are a proper prefix of the path's. -/
def isInside (p dir : FSPath) : Bool :=
  decide (dir <+: p ∧ dir.length < p.length)

/-! ## Environment collaborator -/

/-- Modelled from the spec: an Environment describes the target execution
context (module-system flavor, TypeScript-enabled flag); immutable value. -/
structure Environment where
  typescriptEnabled : Bool
  flavor : Nat
deriving DecidableEq

/-- Modelled from the spec: `with_typescript()` derives a new Environment
value with the TypeScript flag enabled, never mutating in place. -/
def Environment.with_typescript (e : Environment) : Environment :=
  { e with typescriptEnabled := true }

/-- Modelled from the spec: `is_typescript_enabled()` reads the flag. -/
def Environment.is_typescript_enabled (e : Environment) : Bool :=
  e.typescriptEnabled

/-! ## Module options collaborator -/

inductive ModuleType where
  | ecmascript (transforms : Nat)
  | typescript (transforms : Nat)
  | typescriptDeclaration (transforms : Nat)
  | json
  | raw
  | css
  | static
  | custom (data : Nat)
deriving DecidableEq

inductive ModuleRuleEffectKey where
  | moduleType
  | other (n : Nat)
deriving DecidableEq

inductive ModuleRuleEffect where
  | moduleType (ty : ModuleType)
  | other (n : Nat)
deriving DecidableEq

/-- Modelled from the spec: a ModuleRule is a predicate over a path plus a
mapping of effect-key to effect. -/
structure ModuleRule where
  matchesPath : FSPath → Bool
  effects : List (ModuleRuleEffectKey × ModuleRuleEffect)

/-- Modelled from the spec: the configuration bundle of rules, opaque to
the core beyond iteration and matching. -/
structure ModuleOptionsContext where
  rules : List ModuleRule

/-- Modelled from the spec: `ModuleOptionsVc::new(scope, context)` yields
the configured rule list (the `module_options` module is an external
collaborator; the configuration is opaque beyond iteration and matching). -/
def moduleOptionsRules (_scope : FSPath) (moc : ModuleOptionsContext) : List ModuleRule :=
  moc.rules

/-! ## HashMap operations (insert-overwrite, first-match get) used by the core -/

def hmInsert {K V : Type} [DecidableEq K] : List (K × V) → K → V → List (K × V)
  | [], k, v => [(k, v)]
  | p :: rest, k, v => if p.1 = k then (k, v) :: rest else p :: hmInsert rest k v

def hmGet {K V : Type} [DecidableEq K] : List (K × V) → K → Option V
  | [], _ => none
  | p :: rest, k => if p.1 = k then some p.2 else hmGet rest k

/-- `HashMap::extend`: insert every pair of `l`, later pairs overwriting. -/
def hmExtend {K V : Type} [DecidableEq K] (m : List (K × V)) (l : List (K × V)) : List (K × V) :=
  l.foldl (fun acc p => hmInsert acc p.1 p.2) m

/-! ## Module rule engine (`module`, lines 55-60) -/

/-- The effect-merge loop of `module`: for every rule in configuration
order, if it matches the path, extend the accumulated effect map. -/
def moduleEffects (rules : List ModuleRule) (path : FSPath) :
    List (ModuleRuleEffectKey × ModuleRuleEffect) :=
  rules.foldl (fun acc r => if r.matchesPath path then hmExtend acc r.effects else acc) []

/-- The resolved module type of a merged effect map (lines 63-72): `Raw`
when no entry is under the ModuleType key; the carried type when the entry
is a ModuleType effect; `none` models the `unreachable!()` panic when the
entry under the ModuleType key is not a ModuleType effect. -/
def resolvedModuleType (effects : List (ModuleRuleEffectKey × ModuleRuleEffect)) :
    Option ModuleType :=
  match hmGet effects .moduleType with
  | none => some .raw
  | some (.moduleType ty) => some ty
  | some (.other _) => none

/-! ## Asset context and assets -/

/-- `ModuleAssetContext` (lines 151-158). Transitions are opaque handles
(`TransitionVc`), modelled as identifiers interpreted by `TransitionImpl`. -/
structure ModuleAssetContext where
  transitions : List (String × Nat)
  context_path : FSPath
  environment : Environment
  module_options_context : ModuleOptionsContext
  transition : Option Nat

inductive ModuleAssetType where
  | ecmascript
  | typescript
  | typescriptDeclaration
deriving DecidableEq

/-- Assets: a plain source asset, plus the per-filetype module assets as
constructed by the external collaborator constructors with exactly the
arguments the core passes them (lines 74-145). -/
inductive Asset where
  | source (path : FSPath) (content : Nat)
  | ecmascriptModule (src : Asset) (ctx : ModuleAssetContext) (ty : ModuleAssetType)
      (transforms : Nat) (environment : Environment)
  | jsonModule (src : Asset)
  | cssModule (src : Asset) (ctx : ModuleAssetContext)
  | staticModule (src : Asset) (ctx : ModuleAssetContext)

/-- Modelled from the spec: every Asset has a filesystem path; the external
per-filetype module constructors keep the wrapped source's path. -/
def Asset.path : Asset → FSPath
  | .source p _ => p
  | .ecmascriptModule s _ _ _ _ => s.path
  | .jsonModule s => s.path
  | .cssModule s _ => s.path
  | .staticModule s _ => s.path

/-! ## Module factory (`module`, lines 43-149) -/

/-- The merged effect map `module` computes for a source asset: rules are
taken from the options scoped at the source's parent directory and matched
against the source's full path. -/
def effectsFor (src : Asset) (moc : ModuleOptionsContext) :
    List (ModuleRuleEffectKey × ModuleRuleEffect) :=
  moduleEffects (moduleOptionsRules (parentPath src.path) moc) src.path

/-- The module type `module` resolves for a source asset. -/
def resolvedModuleTypeFor (src : Asset) (moc : ModuleOptionsContext) : Option ModuleType :=
  resolvedModuleType (effectsFor src moc)

/-- The module factory (lines 43-149). `none` models the panicking arms
(`unreachable!()` on a non-ModuleType effect under the ModuleType key and
`todo!()` on `Custom`). Every wrapping branch constructs a fresh nested
`ModuleAssetContextVc::new` scoped to the source's parent directory. -/
def module (src : Asset) (transitions : List (String × Nat)) (environment : Environment)
    (moc : ModuleOptionsContext) : Option Asset :=
  let path := src.path
  match resolvedModuleTypeFor src moc with
  | none => none
  | some ty =>
    match ty with
    | .ecmascript t =>
        some (.ecmascriptModule src
          ⟨transitions, parentPath path, environment, moc, none⟩ .ecmascript t environment)
    | .typescript t =>
        some (.ecmascriptModule src
          ⟨transitions, parentPath path, environment.with_typescript, moc, none⟩
          .typescript t environment)
    | .typescriptDeclaration t =>
        some (.ecmascriptModule src
          ⟨transitions, parentPath path, environment.with_typescript, moc, none⟩
          .typescriptDeclaration t environment)
    | .json => some (.jsonModule src)
    | .raw => some src
    | .css =>
        some (.cssModule src ⟨transitions, parentPath path, environment, moc, none⟩)
    | .static =>
        some (.staticModule src ⟨transitions, parentPath path, environment, moc, none⟩)
    | .custom _ => none

/-! ## Context derivations (lines 281-326) -/

/-- `with_context_path` (lines 281-290): rebuilds through
`ModuleAssetContextVc::new` with the given path. -/
def with_context_path (ctx : ModuleAssetContext) (path : FSPath) : ModuleAssetContext :=
  ⟨ctx.transitions, path, ctx.environment, ctx.module_options_context, none⟩

/-- `with_environment` (lines 292-301): rebuilds through
`ModuleAssetContextVc::new` with the given environment. -/
def with_environment (ctx : ModuleAssetContext) (environment : Environment) :
    ModuleAssetContext :=
  ⟨ctx.transitions, ctx.context_path, environment, ctx.module_options_context, none⟩

/-- `with_transition` (lines 303-326): look the name up in the transitions
table; on a hit build through `new_transition`, otherwise through `new`. -/
def with_transition (ctx : ModuleAssetContext) (name : String) : ModuleAssetContext :=
  match ctx.transitions.lookup name with
  | some t =>
      ⟨ctx.transitions, ctx.context_path, ctx.environment, ctx.module_options_context, some t⟩
  | none =>
      ⟨ctx.transitions, ctx.context_path, ctx.environment, ctx.module_options_context, none⟩

/-! ## Process (lines 258-279) -/

/-- Modelled from the spec: the three hooks a named Transition provides
(source-processing, environment-processing, module-processing). -/
structure TransitionImpl where
  process_source : Asset → Asset
  process_environment : Environment → Environment
  process_module : Asset → Asset

/-- `process` (lines 258-279): with an active transition, feed the asset
through the source hook and the environment through the environment hook,
build the module, pass it through the module hook; without a transition,
build the module directly. `I` interprets transition handles. -/
def process (I : Nat → TransitionImpl) (ctx : ModuleAssetContext) (asset : Asset) :
    Option Asset :=
  match ctx.transition with
  | some t =>
      let ti := I t
      (module (ti.process_source asset) ctx.transitions
        (ti.process_environment ctx.environment) ctx.module_options_context).map
        ti.process_module
  | none => module asset ctx.transitions ctx.environment ctx.module_options_context

/-! ## Resolve (lines 217-244) -/

inductive Reference where
  | typescriptTypes (ctx : ModuleAssetContext) (request : Nat)
  | plain (n : Nat)

/-- A ResolveResult: the resolved assets plus attached references. -/
structure ResolveResult where
  assets : List Asset
  references : List Reference

/-- `ResolveResult::map` with an identity reference mapper, as used in
`resolve_asset`: process every resolved asset, keep the references. -/
def ResolveResult.mapAssets (r : ResolveResult) (f : Asset → Option Asset) :
    Option ResolveResult :=
  (r.assets.mapM f).map (fun l => ⟨l, r.references⟩)

def ResolveResult.add_reference (r : ResolveResult) (ref : Reference) : ResolveResult :=
  { r with references := r.references ++ [ref] }

/-- `resolve_asset` (lines 217-244): resolve through the external resolver
`R`, process every resolved asset through `process`, and when TypeScript is
enabled attach one synthetic TypeScript-types reference built over a fresh
context at the given `context_path`. -/
def resolve_asset (I : Nat → TransitionImpl) (R : FSPath → Nat → Nat → ResolveResult)
    (ctx : ModuleAssetContext) (context_path : FSPath) (request : Nat) (opts : Nat) :
    Option ResolveResult :=
  ((R context_path request opts).mapAssets (process I ctx)).map (fun res =>
    if ctx.environment.is_typescript_enabled then
      res.add_reference (.typescriptTypes
        ⟨ctx.transitions, context_path, ctx.environment, ctx.module_options_context, none⟩
        request)
    else res)

/-- The number of synthetic TypeScript-types references in a reference list. -/
def countTypesRefs (l : List Reference) : Nat :=
  l.countP (fun r => match r with | .typescriptTypes _ _ => true | .plain _ => false)

/-! ## Spec-side definitions for the effect-merge refinement -/

/-- Spec-side: the effects of every rule whose predicate matches the path,
concatenated in configuration (first-to-last) order. -/
def matchingRuleEffects (rules : List ModuleRule) (path : FSPath) :
    List (ModuleRuleEffectKey × ModuleRuleEffect) :=
  (rules.filter (fun r => r.matchesPath path)).foldr (fun r acc => r.effects ++ acc) []

/-- Spec-side: last-write-wins lookup — the value of the last pair carrying
the key, "the later-configured rule's effect is the one in the result". -/
def lastWins {K V : Type} [DecidableEq K] (l : List (K × V)) (k : K) : Option V :=
  (l.reverse.find? (fun p => decide (p.1 = k))).map (·.2)

/-! ## Aggregated graph engine

The graph functions treat `AssetVc` as an opaque handle, so assets are
modelled as `Nat` identifiers here; `all_referenced_assets` (an external
collaborator) is a parameter `refs`. -/

/-- An aggregated graph node (`AggregatedGraphNodeContent`): a single asset
leaf or a list of child nodes. -/
inductive AggregatedGraph where
  | asset (a : Nat)
  | children (cs : List AggregatedGraph)

/-- The leaf assets of an aggregated graph node. -/
def leavesOf : AggregatedGraph → List Nat
  | .asset a => [a]
  | .children cs => cs.attach.foldl (fun acc c => acc ++ leavesOf c.1) []
decreasing_by
  simp only [AggregatedGraph.children.sizeOf_spec]
  have := List.sizeOf_lt_of_mem c.2
  omega

/-- `emit_asset_into_dir` (lines 376-387), with the write effect recorded
as the list of assets written: write the asset only if its path lies inside
the output directory, otherwise a no-op completion. -/
def emit_asset_into_dir (paths : Nat → FSPath) (a : Nat) (output_dir : FSPath) : List Nat :=
  if isInside (paths a) output_dir then [a] else []

/-- `emit_aggregated_assets` (lines 345-359): a leaf emits through
`emit_asset_into_dir`; an internal node recurses into every child
sequentially, concatenating the writes. -/
def emit_aggregated_assets (paths : Nat → FSPath) (output_dir : FSPath) :
    AggregatedGraph → List Nat
  | .asset a => emit_asset_into_dir paths a output_dir
  | .children cs =>
      cs.attach.foldl (fun acc c => acc ++ emit_aggregated_assets paths output_dir c.1) []
decreasing_by
  simp only [AggregatedGraph.children.sizeOf_spec]
  have := List.sizeOf_lt_of_mem c.2
  omega

/-- The assets reachable from a root via direct and transitive references
in the original graph (spec-side notion for the aggregation invariant). -/
inductive Reachable (refs : Nat → List Nat) (root : Nat) : Nat → Prop
  | root : Reachable refs root root
  | step {a b : Nat} : Reachable refs root a → b ∈ refs a → Reachable refs root b

/-- Merge one back-reference list into the accumulated map
(`compute_back_references`, lines 418-428): set union on collision, new
entry otherwise. -/
def mergeRefLists (acc : List (Nat × Finset Nat)) (l : List (Nat × Finset Nat)) :
    List (Nat × Finset Nat) :=
  l.foldl (fun acc p =>
    match hmGet acc p.1 with
    | some s => hmInsert acc p.1 (s ∪ p.2)
    | none => acc ++ [(p.1, p.2)]) acc

/-- `compute_back_references` (lines 402-432): a leaf maps each direct
outgoing reference of its asset to the singleton of that asset; an internal
node union-merges the children's results. -/
def compute_back_references (refs : Nat → List Nat) : AggregatedGraph → List (Nat × Finset Nat)
  | .asset a => (refs a).foldl (fun m r => hmInsert m r {a}) []
  | .children cs =>
      cs.attach.foldl (fun acc c => mergeRefLists acc (compute_back_references refs c.1)) []
decreasing_by
  simp only [AggregatedGraph.children.sizeOf_spec]
  have := List.sizeOf_lt_of_mem c.2
  omega

/-- Lookup of the back-reference set under a key, empty set when absent. -/
def lookupSet (m : List (Nat × Finset Nat)) (k : Nat) : Finset Nat :=
  (hmGet m k).getD ∅

/-! ## Top-N selection (`top_references`, lines 434-457) -/

/-- One back-reference entry: an asset together with the set of assets
referencing it. -/
abbrev RefEntry := Nat × Finset Nat

/-- The inner sweep of `top_references` (lines 440-445): walk the working
set; whenever a member's set size is strictly below the incoming tuple's
size, swap the member with `current`. `tlen` stays fixed at the incoming
tuple's size through the sweep, exactly as in the source. -/
def trInner : List RefEntry → RefEntry → Nat → (List RefEntry × RefEntry)
  | [], cur, _ => ([], cur)
  | e :: rest, cur, tlen =>
    if e.2.card < tlen then
      let rc := trInner rest e tlen
      (cur :: rc.1, rc.2)
    else
      let rc := trInner rest cur tlen
      (e :: rc.1, rc.2)

/-- One iteration of the outer loop of `top_references` (lines 439-448):
sweep the working set, then push the leftover entry while the working set
has fewer than `N = 5` members. -/
def trStep (top : List RefEntry) (t : RefEntry) : List RefEntry :=
  let rc := trInner top t t.2.card
  if rc.1.length < 5 then rc.1 ++ [rc.2] else rc.1

/-- `top_references` (lines 434-457) over a given iteration order of the
input map's entries. -/
def top_references (l : List RefEntry) : List RefEntry :=
  l.foldl trStep []

/-- Insertion of an entry into a list ordered by descending set size: the
entry is placed before the first strictly smaller member. -/
def insertDesc (t : RefEntry) : List RefEntry → List RefEntry
  | [] => [t]
  | x :: xs => if x.2.card < t.2.card then t :: x :: xs else x :: insertDesc t xs

/-- Insertion sort by descending set size, folding the input in order. -/
def insortDesc (l : List RefEntry) : List RefEntry :=
  l.foldl (fun s t => insertDesc t s) []

/-! ## Helper lemmas: map operations -/

theorem hmGet_hmInsert {K V : Type} [DecidableEq K] (m : List (K × V)) (k k' : K) (v : V) :
    hmGet (hmInsert m k v) k' = if k' = k then some v else hmGet m k' := by
  induction m with
  | nil =>
      by_cases h : k' = k
      · subst h; simp [hmInsert, hmGet]
      · simp [hmInsert, hmGet, h, Ne.symm h]
  | cons p rest ih =>
      by_cases hp : p.1 = k
      · by_cases h : k' = k
        · subst h; simp [hmInsert, hmGet, hp]
        · simp [hmInsert, hmGet, hp, h, Ne.symm h]
      · by_cases h : k' = k
        · subst h; simp [hmInsert, hmGet, hp, ih]
        · simp only [hmInsert, if_neg hp, hmGet]
          by_cases hq : p.1 = k' <;> simp [hq, ih, h]

theorem hmGet_append {K V : Type} [DecidableEq K] (m₁ m₂ : List (K × V)) (k : K) :
    hmGet (m₁ ++ m₂) k =
      match hmGet m₁ k with
      | some v => some v
      | none => hmGet m₂ k := by
  induction m₁ with
  | nil => simp [hmGet]
  | cons p rest ih =>
      by_cases hp : p.1 = k <;> simp [hmGet, hp, ih]

theorem lastWins_nil {K V : Type} [DecidableEq K] (k : K) :
    lastWins ([] : List (K × V)) k = none := rfl

theorem lastWins_cons {K V : Type} [DecidableEq K] (p : K × V) (l : List (K × V)) (k : K) :
    lastWins (p :: l) k =
      match lastWins l k with
      | some v => some v
      | none => if p.1 = k then some p.2 else none := by
  simp only [lastWins, List.reverse_cons, List.find?_append]
  cases h : List.find? (fun q => decide (q.1 = k)) l.reverse with
  | none =>
      simp [h, List.find?]
      by_cases hp : p.1 = k <;> simp [hp]
  | some q => simp [h]

theorem lastWins_append {K V : Type} [DecidableEq K] (l₁ l₂ : List (K × V)) (k : K) :
    lastWins (l₁ ++ l₂) k =
      match lastWins l₂ k with
      | some v => some v
      | none => lastWins l₁ k := by
  simp only [lastWins, List.reverse_append, List.find?_append]
  cases h : List.find? (fun q => decide (q.1 = k)) l₂.reverse with
  | none => simp [h]
  | some q => simp [h]

theorem hmGet_hmExtend {K V : Type} [DecidableEq K] (m l : List (K × V)) (k : K) :
    hmGet (hmExtend m l) k =
      match lastWins l k with
      | some v => some v
      | none => hmGet m k := by
  induction l generalizing m with
  | nil => simp [hmExtend, lastWins_nil]
  | cons p rest ih =>
      have hcons := lastWins_cons p rest k
      show hmGet (hmExtend (hmInsert m p.1 p.2) rest) k = _
      rw [ih, hcons, hmGet_hmInsert]
      cases hr : lastWins rest k with
      | some v => simp
      | none =>
          by_cases hp : p.1 = k <;> simp [hp]
          · intro h2
            exact absurd h2.symm hp

theorem matchingRuleEffects_cons (r : ModuleRule) (rules : List ModuleRule) (path : FSPath) :
    matchingRuleEffects (r :: rules) path =
      if r.matchesPath path then r.effects ++ matchingRuleEffects rules path
      else matchingRuleEffects rules path := by
  by_cases h : r.matchesPath path <;> simp [matchingRuleEffects, List.filter, h]

theorem moduleEffects_foldl_lastWins (rules : List ModuleRule) (path : FSPath)
    (m : List (ModuleRuleEffectKey × ModuleRuleEffect)) (k : ModuleRuleEffectKey) :
    hmGet (rules.foldl
        (fun acc r => if r.matchesPath path then hmExtend acc r.effects else acc) m) k =
      match lastWins (matchingRuleEffects rules path) k with
      | some v => some v
      | none => hmGet m k := by
  induction rules generalizing m with
  | nil => simp [matchingRuleEffects, lastWins_nil]
  | cons r rest ih =>
      rw [List.foldl_cons, ih, matchingRuleEffects_cons]
      by_cases h : r.matchesPath path
      · rw [if_pos h, if_pos h, lastWins_append, hmGet_hmExtend]
        cases lastWins (matchingRuleEffects rest path) k with
        | some v => simp
        | none => cases lastWins r.effects k <;> rfl
      · rw [if_neg h, if_neg h]

/-! ## Claim theorems -/

/-- C1 (amended): `with_context_path(path)` returns a context in which the
context_path is replaced and the active transition is reset to `None`, and
`with_environment(env)` returns a context in which the environment is
replaced and the active transition is reset to `None`; the remaining three
fields are copied unchanged. -/
theorem with_context_path_with_environment_frame (ctx : ModuleAssetContext) (p : FSPath)
    (e : Environment) :
    with_context_path ctx p = { ctx with context_path := p, transition := none } ∧
    with_environment ctx e = { ctx with environment := e, transition := none } :=
  ⟨rfl, rfl⟩

/-- C1 counterexample: for a context with an active transition,
`with_context_path` does not copy the transition field unchanged — both
derivations rebuild through `ModuleAssetContextVc::new`, which sets the
transition to `None`. -/
theorem with_context_path_transition_not_copied :
    (with_context_path ⟨[("t", 0)], ["app"], ⟨false, 0⟩, ⟨[]⟩, some 0⟩ ["x"]).transition ≠
      (ModuleAssetContext.mk [("t", 0)] ["app"] ⟨false, 0⟩ ⟨[]⟩ (some 0)).transition := by
  decide

/-- C2: the effect map the `module` function computes is, per effect key,
the last-write-wins merge over the effects of the matching rules taken in
configuration (first-to-last) order: a later-configured matching rule's
effect overrides an earlier one for the same key. -/
theorem effectsFor_lastWins (moc : ModuleOptionsContext) (src : Asset)
    (k : ModuleRuleEffectKey) :
    hmGet (effectsFor src moc) k = lastWins (matchingRuleEffects moc.rules src.path) k := by
  show hmGet (moduleEffects (moduleOptionsRules (parentPath src.path) moc) src.path) k = _
  rw [show moduleOptionsRules (parentPath src.path) moc = moc.rules from rfl]
  show hmGet (List.foldl _ [] moc.rules) k = _
  rw [moduleEffects_foldl_lastWins]
  cases lastWins (matchingRuleEffects moc.rules src.path) k <;> rfl

/-- C3: when the merged effect map has no entry under the ModuleType key,
the resolved module type is Raw and `module` returns the source asset
itself, unchanged. -/
theorem module_raw_default (src : Asset) (transitions : List (String × Nat))
    (environment : Environment) (moc : ModuleOptionsContext)
    (h : hmGet (effectsFor src moc) .moduleType = none) :
    resolvedModuleTypeFor src moc = some .raw ∧
    module src transitions environment moc = some src := by
  have h1 : resolvedModuleTypeFor src moc = some .raw := by
    unfold resolvedModuleTypeFor resolvedModuleType
    rw [h]
  exact ⟨h1, by unfold module; rw [h1]⟩

/-- C3 witness: with an empty rule configuration the effect map has no
ModuleType entry and `module` passes the source through. -/
theorem module_raw_default_witness :
    hmGet (effectsFor (.source ["a", "b.bin"] 0) ⟨[]⟩) .moduleType = none ∧
    module (.source ["a", "b.bin"] 0) [] ⟨false, 0⟩ ⟨[]⟩ = some (.source ["a", "b.bin"] 0) :=
  ⟨rfl, (module_raw_default (.source ["a", "b.bin"] 0) [] ⟨false, 0⟩ ⟨[]⟩ rfl).2⟩

/-- C9: `with_transition(name)` never fails and returns a context equal to
the original in the four non-transition fields, with the transition field
set to the result of looking the name up in the transitions table: the
named transition when present, `None` when absent. -/
theorem with_transition_eq_lookup (ctx : ModuleAssetContext) (name : String) :
    with_transition ctx name = { ctx with transition := ctx.transitions.lookup name } := by
  unfold with_transition
  cases h : ctx.transitions.lookup name <;> rfl

/-- C10: for the Typescript and TypescriptDeclaration module types, the
nested AssetContext receives `environment.with_typescript()` while the
EcmascriptModuleAsset constructor receives the original environment; for
the Ecmascript module type both receive the original environment. -/
theorem module_typescript_environment_upgrade (src : Asset)
    (transitions : List (String × Nat)) (environment : Environment)
    (moc : ModuleOptionsContext) (t : Nat) :
    (resolvedModuleTypeFor src moc = some (.typescript t) →
      module src transitions environment moc = some (.ecmascriptModule src
        ⟨transitions, parentPath src.path, environment.with_typescript, moc, none⟩
        .typescript t environment)) ∧
    (resolvedModuleTypeFor src moc = some (.typescriptDeclaration t) →
      module src transitions environment moc = some (.ecmascriptModule src
        ⟨transitions, parentPath src.path, environment.with_typescript, moc, none⟩
        .typescriptDeclaration t environment)) ∧
    (resolvedModuleTypeFor src moc = some (.ecmascript t) →
      module src transitions environment moc = some (.ecmascriptModule src
        ⟨transitions, parentPath src.path, environment, moc, none⟩
        .ecmascript t environment)) := by
  refine ⟨fun h => ?_, fun h => ?_, fun h => ?_⟩ <;> (unfold module; rw [h])

/-- C10 witness: a rule classifying the path as Typescript produces a
module whose nested context carries the upgraded environment while the
constructor itself received the original environment. -/
theorem module_typescript_environment_upgrade_witness :
    resolvedModuleTypeFor (.source ["a", "b.ts"] 0)
        ⟨[⟨fun _ => true, [(.moduleType, .moduleType (.typescript 7))]⟩]⟩ =
      some (.typescript 7) ∧
    module (.source ["a", "b.ts"] 0) [] ⟨false, 0⟩
        ⟨[⟨fun _ => true, [(.moduleType, .moduleType (.typescript 7))]⟩]⟩ =
      some (.ecmascriptModule (.source ["a", "b.ts"] 0)
        ⟨[], ["a"], ⟨true, 0⟩, ⟨[⟨fun _ => true, [(.moduleType, .moduleType (.typescript 7))]⟩]⟩,
          none⟩
        .typescript 7 ⟨false, 0⟩) :=
  ⟨rfl,
    (module_typescript_environment_upgrade (.source ["a", "b.ts"] 0) [] ⟨false, 0⟩
      ⟨[⟨fun _ => true, [(.moduleType, .moduleType (.typescript 7))]⟩]⟩ 7).1 rfl⟩

/-- C8 counterexample: for a context without an active transition whose
configuration classifies every path as Json, processing a source asset
wraps it in a Json module asset, and processing the result again wraps it
a second time — `process (process asset)` is a doubly nested module, not
an asset equal to `process asset`. -/
theorem process_not_idempotent :
    (process (fun _ => ⟨id, id, id⟩)
        ⟨[], [], ⟨false, 0⟩, ⟨[⟨fun _ => true, [(.moduleType, .moduleType .json)]⟩]⟩, none⟩
        (.source ["a.json"] 0)).bind
      (process (fun _ => ⟨id, id, id⟩)
        ⟨[], [], ⟨false, 0⟩, ⟨[⟨fun _ => true, [(.moduleType, .moduleType .json)]⟩]⟩, none⟩) ≠
    process (fun _ => ⟨id, id, id⟩)
      ⟨[], [], ⟨false, 0⟩, ⟨[⟨fun _ => true, [(.moduleType, .moduleType .json)]⟩]⟩, none⟩
      (.source ["a.json"] 0) := by
  intro h
  have h2 : some (Asset.jsonModule (.jsonModule (.source ["a.json"] 0))) =
      some (Asset.jsonModule (.source ["a.json"] 0)) := h
  simp at h2

/-- C8 (amended): under a context with no active transition, for an asset
whose resolved module type is Raw, `process` returns the asset unchanged,
so applying `process` to the result of `process` yields the result of a
single `process` call; for wrapping module types the factory nests the
already-built module in a fresh module asset instead. -/
theorem process_idempotent_on_raw (I : Nat → TransitionImpl) (ctx : ModuleAssetContext)
    (asset : Asset) (h0 : ctx.transition = none)
    (h1 : resolvedModuleTypeFor asset ctx.module_options_context = some .raw) :
    process I ctx asset = some asset ∧
    (process I ctx asset).bind (process I ctx) = process I ctx asset := by
  have hp : process I ctx asset = some asset := by
    unfold process
    rw [h0]
    unfold module
    rw [h1]
  exact ⟨hp, by rw [hp, Option.some_bind, hp]⟩

/-- C8 witness: under an empty rule configuration (everything resolves to
Raw) and no active transition, processing is the identity and idempotent. -/
theorem process_idempotent_on_raw_witness :
    (ModuleAssetContext.mk [] [] ⟨false, 0⟩ ⟨[]⟩ none).transition = none ∧
    resolvedModuleTypeFor (.source ["a.js"] 0)
        (ModuleAssetContext.mk [] [] ⟨false, 0⟩ ⟨[]⟩ none).module_options_context =
      some .raw ∧
    process (fun _ => ⟨id, id, id⟩) ⟨[], [], ⟨false, 0⟩, ⟨[]⟩, none⟩ (.source ["a.js"] 0) =
      some (.source ["a.js"] 0) :=
  ⟨rfl, rfl,
    (process_idempotent_on_raw (fun _ => ⟨id, id, id⟩) ⟨[], [], ⟨false, 0⟩, ⟨[]⟩, none⟩
      (.source ["a.js"] 0) rfl rfl).1⟩

/-- C4: when the base resolver result carries no synthetic TypeScript-types
reference, a successful `resolve_asset` call attaches exactly one such
reference when the context's environment has TypeScript enabled and none
when it does not; `resolve_asset` is a pure function of its arguments, so
repeated resolutions of the same request yield this same result and never
accumulate duplicates. -/
theorem resolve_asset_types_reference (I : Nat → TransitionImpl)
    (R : FSPath → Nat → Nat → ResolveResult) (ctx : ModuleAssetContext)
    (context_path : FSPath) (request : Nat) (opts : Nat) (res : ResolveResult)
    (hbase : countTypesRefs (R context_path request opts).references = 0)
    (hres : resolve_asset I R ctx context_path request opts = some res) :
    countTypesRefs res.references =
      (if ctx.environment.is_typescript_enabled then 1 else 0) := by
  unfold resolve_asset ResolveResult.mapAssets at hres
  cases hm : (R context_path request opts).assets.mapM (process I ctx) with
  | none => rw [hm] at hres; simp at hres
  | some l =>
      rw [hm] at hres
      simp only [Option.map_some', Option.some.injEq] at hres
      by_cases hts : ctx.environment.is_typescript_enabled
      · rw [if_pos hts] at hres ⊢
        subst hres
        unfold countTypesRefs at hbase ⊢
        simp only [ResolveResult.add_reference, List.countP_append]
        rw [hbase]
        rfl
      · rw [if_neg hts] at hres ⊢
        subst hres
        exact hbase

/-- C4 witness: a TypeScript-enabled context attaches exactly one types
reference to a base result that had none. -/
theorem resolve_asset_types_reference_witness :
    countTypesRefs (ResolveResult.mk [] []).references = 0 ∧
    resolve_asset (fun _ => ⟨id, id, id⟩) (fun _ _ _ => ⟨[], []⟩)
        ⟨[], [], ⟨true, 0⟩, ⟨[]⟩, none⟩ ["src"] 4 9 =
      some ⟨[], [.typescriptTypes ⟨[], ["src"], ⟨true, 0⟩, ⟨[]⟩, none⟩ 4]⟩ ∧
    countTypesRefs
        (ResolveResult.mk ([] : List Asset)
          [.typescriptTypes ⟨[], ["src"], ⟨true, 0⟩, ⟨[]⟩, none⟩ 4]).references = 1 :=
  ⟨rfl, rfl,
    resolve_asset_types_reference (fun _ => ⟨id, id, id⟩) (fun _ _ _ => ⟨[], []⟩)
      ⟨[], [], ⟨true, 0⟩, ⟨[]⟩, none⟩ ["src"] 4 9
      ⟨[], [.typescriptTypes ⟨[], ["src"], ⟨true, 0⟩, ⟨[]⟩, none⟩ 4]⟩ rfl rfl⟩

/-! ## Helper lemmas: aggregated graph traversals -/

theorem hmGet_eq_none_iff {K V : Type} [DecidableEq K] (m : List (K × V)) (k : K) :
    hmGet m k = none ↔ k ∉ m.map Prod.fst := by
  induction m with
  | nil => simp [hmGet]
  | cons p rest ih =>
      by_cases hp : p.1 = k <;> simp [hmGet, hp, ih, Ne.symm]

theorem mem_keys_hmInsert {K V : Type} [DecidableEq K] (m : List (K × V)) (k k' : K) (v : V) :
    k' ∈ (hmInsert m k v).map Prod.fst ↔ k' = k ∨ k' ∈ m.map Prod.fst := by
  induction m with
  | nil => simp [hmInsert]
  | cons p rest ih =>
      by_cases hp : p.1 = k <;> simp [hmInsert, hp, ih] <;> tauto

theorem hmInsert_keys_nodup {K V : Type} [DecidableEq K] (m : List (K × V)) (k : K) (v : V)
    (h : (m.map Prod.fst).Nodup) : ((hmInsert m k v).map Prod.fst).Nodup := by
  induction m with
  | nil => simp [hmInsert]
  | cons p rest ih =>
      by_cases hp : p.1 = k
      · simpa [hmInsert, hp] using h
      · simp only [List.map_cons, List.nodup_cons] at h
        simp only [hmInsert, if_neg hp, List.map_cons, List.nodup_cons]
        refine ⟨?_, ih h.2⟩
        rw [mem_keys_hmInsert]
        rintro (h1 | h1)
        · exact hp h1
        · exact h.1 h1

theorem mergeRefLists_cons (acc : List (Nat × Finset Nat)) (p : Nat × Finset Nat)
    (rest : List (Nat × Finset Nat)) :
    mergeRefLists acc (p :: rest) =
      mergeRefLists
        (match hmGet acc p.1 with
          | some s => hmInsert acc p.1 (s ∪ p.2)
          | none => acc ++ [(p.1, p.2)]) rest := rfl

theorem mergeRefLists_keys_nodup (acc l : List (Nat × Finset Nat))
    (h : (acc.map Prod.fst).Nodup) : ((mergeRefLists acc l).map Prod.fst).Nodup := by
  induction l generalizing acc with
  | nil => exact h
  | cons p rest ih =>
      rw [mergeRefLists_cons]
      cases hg : hmGet acc p.1 with
      | some s => exact ih _ (hmInsert_keys_nodup _ _ _ h)
      | none =>
          apply ih
          rw [List.map_append]
          simp only [List.map_cons, List.map_nil]
          rw [List.nodup_append]
          refine ⟨h, List.nodup_singleton _, ?_⟩
          intro x hx hx2
          simp only [List.mem_singleton] at hx2
          subst hx2
          exact (hmGet_eq_none_iff acc p.1).mp hg hx

theorem lookupSet_nil (k : Nat) : lookupSet [] k = ∅ := rfl

theorem lookupSet_mergeRefLists (l acc : List (Nat × Finset Nat)) (k : Nat)
    (hl : (l.map Prod.fst).Nodup) :
    lookupSet (mergeRefLists acc l) k = lookupSet acc k ∪ lookupSet l k := by
  induction l generalizing acc with
  | nil => simp [mergeRefLists, lookupSet, hmGet]
  | cons p rest ih =>
      simp only [List.map_cons, List.nodup_cons] at hl
      rw [mergeRefLists_cons]
      by_cases hp : p.1 = k
      · have hk : hmGet rest k = none :=
          (hmGet_eq_none_iff rest k).mpr (by rw [← hp]; exact hl.1)
        cases hg : hmGet acc p.1 with
        | some s =>
            rw [ih _ hl.2]
            unfold lookupSet
            rw [hmGet_hmInsert, if_pos hp.symm, hk, ← hp, hg]
            simp [hmGet, hp]
        | none =>
            rw [ih _ hl.2]
            unfold lookupSet
            rw [hmGet_append, hk, ← hp, hg]
            simp [hmGet]
      · cases hg : hmGet acc p.1 with
        | some s =>
            rw [ih _ hl.2]
            unfold lookupSet
            rw [hmGet_hmInsert, if_neg (fun h => hp h.symm)]
            simp [hmGet, hp]
        | none =>
            rw [ih _ hl.2]
            unfold lookupSet
            rw [hmGet_append]
            cases hacc : hmGet acc k <;> simp [hmGet, hp, hacc]

theorem mem_foldl_append {α β : Type} (f : α → List β) (l : List α) (init : List β) (x : β) :
    x ∈ l.foldl (fun acc c => acc ++ f c) init ↔ x ∈ init ∨ ∃ c ∈ l, x ∈ f c := by
  induction l generalizing init with
  | nil => simp
  | cons c rest ih =>
      rw [List.foldl_cons, ih]
      simp only [List.mem_append, List.mem_cons]
      constructor
      · rintro ((h | h) | ⟨c2, hc2, hx⟩)
        · exact Or.inl h
        · exact Or.inr ⟨c, Or.inl rfl, h⟩
        · exact Or.inr ⟨c2, Or.inr hc2, hx⟩
      · rintro (h | ⟨c2, (hc2 | hc2), hx⟩)
        · exact Or.inl (Or.inl h)
        · subst hc2; exact Or.inl (Or.inr hx)
        · exact Or.inr ⟨c2, hc2, hx⟩

theorem attach_foldl {α β : Type} (l : List α) (g : β → α → β) (init : β) :
    l.attach.foldl (fun acc c => g acc c.1) init = l.foldl g init := by
  have h : l.attach.map Subtype.val = l := by simp
  conv_rhs => rw [← h, List.foldl_map]

theorem cbr_asset (refs : Nat → List Nat) (a : Nat) :
    compute_back_references refs (.asset a) =
      (refs a).foldl (fun m r => hmInsert m r {a}) [] := by
  rw [compute_back_references]

theorem cbr_children (refs : Nat → List Nat) (cs : List AggregatedGraph) :
    compute_back_references refs (.children cs) =
      cs.foldl (fun acc c => mergeRefLists acc (compute_back_references refs c)) [] := by
  rw [compute_back_references]
  exact attach_foldl cs (fun acc c => mergeRefLists acc (compute_back_references refs c)) []

theorem cbr_keys_nodup (refs : Nat → List Nat) (t : AggregatedGraph) :
    ((compute_back_references refs t).map Prod.fst).Nodup := by
  cases t with
  | asset a =>
      rw [cbr_asset]
      have H : ∀ (l : List Nat) (m : List (Nat × Finset Nat)), (m.map Prod.fst).Nodup →
          (((l.foldl (fun m r => hmInsert m r {a}) m)).map Prod.fst).Nodup := by
        intro l
        induction l with
        | nil => exact fun m h => h
        | cons x xs ih => exact fun m h => ih _ (hmInsert_keys_nodup _ _ _ h)
      exact H _ [] (by simp)
  | children cs =>
      rw [cbr_children]
      have H : ∀ (l : List AggregatedGraph) (acc : List (Nat × Finset Nat)),
          (acc.map Prod.fst).Nodup →
          ((l.foldl (fun acc c => mergeRefLists acc (compute_back_references refs c)) acc).map
            Prod.fst).Nodup := by
        intro l
        induction l with
        | nil => exact fun acc h => h
        | cons c rest ih => exact fun acc h => ih _ (mergeRefLists_keys_nodup _ _ h)
      exact H _ [] (by simp)

theorem hmGet_foldl_insert_singleton (a : Nat) (l : List Nat) (m : List (Nat × Finset Nat))
    (r : Nat) :
    hmGet (l.foldl (fun m x => hmInsert m x ({a} : Finset Nat)) m) r =
      if r ∈ l then some {a} else hmGet m r := by
  induction l generalizing m with
  | nil => simp
  | cons x xs ih =>
      rw [List.foldl_cons, ih]
      by_cases hr : r ∈ xs
      · simp [hr]
      · by_cases hx : r = x <;> simp [hr, hx, hmGet_hmInsert]

theorem leavesOf_asset (a : Nat) : leavesOf (.asset a) = [a] := by
  rw [leavesOf]

theorem leavesOf_children (cs : List AggregatedGraph) :
    leavesOf (.children cs) = cs.foldl (fun acc c => acc ++ leavesOf c) [] := by
  rw [leavesOf]
  exact attach_foldl cs (fun acc c => acc ++ leavesOf c) []

theorem emit_asset_eq (paths : Nat → FSPath) (dir : FSPath) (a : Nat) :
    emit_aggregated_assets paths dir (.asset a) = emit_asset_into_dir paths a dir := by
  rw [emit_aggregated_assets]

theorem emit_children_eq (paths : Nat → FSPath) (dir : FSPath) (cs : List AggregatedGraph) :
    emit_aggregated_assets paths dir (.children cs) =
      cs.foldl (fun acc c => acc ++ emit_aggregated_assets paths dir c) [] := by
  rw [emit_aggregated_assets]
  exact attach_foldl cs (fun acc c => acc ++ emit_aggregated_assets paths dir c) []

theorem mem_emit_aggregated (paths : Nat → FSPath) (dir : FSPath) :
    ∀ (t : AggregatedGraph) (a : Nat), a ∈ emit_aggregated_assets paths dir t ↔
      (a ∈ leavesOf t ∧ isInside (paths a) dir = true)
  | .asset b, a => by
      rw [emit_asset_eq, leavesOf_asset]
      unfold emit_asset_into_dir
      by_cases h : isInside (paths b) dir
      · simp only [if_pos h, List.mem_singleton]
        exact ⟨fun hab => ⟨hab, hab ▸ h⟩, fun hx => hx.1⟩
      · simp only [if_neg h, List.not_mem_nil, List.mem_singleton, false_iff]
        rintro ⟨rfl, hx⟩
        exact h hx
  | .children cs, a => by
      rw [emit_children_eq, leavesOf_children]
      rw [mem_foldl_append, mem_foldl_append]
      simp only [List.not_mem_nil, false_or]
      constructor
      · rintro ⟨c, hc, ha⟩
        have hr := (mem_emit_aggregated paths dir c a).mp ha
        exact ⟨⟨c, hc, hr.1⟩, hr.2⟩
      · rintro ⟨⟨c, hc, ha⟩, hin⟩
        exact ⟨c, hc, (mem_emit_aggregated paths dir c a).mpr ⟨ha, hin⟩⟩
termination_by t _ => sizeOf t
decreasing_by
  all_goals
    simp only [AggregatedGraph.children.sizeOf_spec]
    have := List.sizeOf_lt_of_mem hc
    omega

/-- C6: `compute_back_references` satisfies its recursive definition: a
leaf holding asset `a` maps each direct outgoing reference `r` of `a` to
the singleton `{a}`; an internal node is the key-wise set union of its
children's results; in particular, for a graph where asset 0 references 1
and 2 and asset 3 also references 1, the computed map at key 1 is exactly
`{0, 3}`. -/
theorem compute_back_references_spec :
    (∀ (refs : Nat → List Nat) (a r : Nat),
      hmGet (compute_back_references refs (.asset a)) r =
        if r ∈ refs a then some ({a} : Finset Nat) else none) ∧
    (∀ (refs : Nat → List Nat) (cs : List AggregatedGraph) (k : Nat),
      lookupSet (compute_back_references refs (.children cs)) k =
        cs.foldl (fun s c => s ∪ lookupSet (compute_back_references refs c) k) ∅) ∧
    lookupSet (compute_back_references
        (fun x => if x = 0 then [1, 2] else if x = 3 then [1] else [])
        (.children [.asset 0, .asset 3, .asset 1, .asset 2])) 1 = {0, 3} := by
  have hleaf : ∀ (refs : Nat → List Nat) (a r : Nat),
      hmGet (compute_back_references refs (.asset a)) r =
        if r ∈ refs a then some ({a} : Finset Nat) else none := by
    intro refs a r
    rw [cbr_asset, hmGet_foldl_insert_singleton]
    by_cases h : r ∈ refs a <;> simp [h, hmGet]
  have hchild : ∀ (refs : Nat → List Nat) (cs : List AggregatedGraph) (k : Nat),
      lookupSet (compute_back_references refs (.children cs)) k =
        cs.foldl (fun s c => s ∪ lookupSet (compute_back_references refs c) k) ∅ := by
    intro refs cs k
    rw [cbr_children]
    have H : ∀ (l : List AggregatedGraph) (acc : List (Nat × Finset Nat)),
        (acc.map Prod.fst).Nodup →
        lookupSet (l.foldl (fun acc c => mergeRefLists acc (compute_back_references refs c)) acc)
            k =
          l.foldl (fun s c => s ∪ lookupSet (compute_back_references refs c) k)
            (lookupSet acc k) := by
      intro l
      induction l with
      | nil => exact fun acc _ => rfl
      | cons c rest ih =>
          intro acc h
          rw [List.foldl_cons, List.foldl_cons, ih _ (mergeRefLists_keys_nodup _ _ h),
            lookupSet_mergeRefLists _ _ _ (cbr_keys_nodup refs c)]
    exact H cs [] (by simp)
  refine ⟨hleaf, hchild, ?_⟩
  rw [hchild]
  have hls : ∀ (refs : Nat → List Nat) (a r : Nat),
      lookupSet (compute_back_references refs (.asset a)) r =
        if r ∈ refs a then {a} else ∅ := by
    intro refs a r
    unfold lookupSet
    rw [hleaf]
    by_cases h : r ∈ refs a <;> simp [h]
  simp only [List.foldl_cons, List.foldl_nil, hls]
  decide

/-- C7: aggregated emission writes a leaf asset if and only if its path
lies inside the output directory; given that the tree's leaves are exactly
the assets reachable from the root, an asset is written if and only if it
is reachable and its path is inside the output directory, and an outside
asset is skipped rather than being an error. -/
theorem emit_aggregated_scoped (paths : Nat → FSPath) (refs : Nat → List Nat) (root : Nat)
    (dir : FSPath) (t : AggregatedGraph)
    (hleaf : ∀ x, x ∈ leavesOf t ↔ Reachable refs root x) :
    ∀ a, a ∈ emit_aggregated_assets paths dir t ↔
      (Reachable refs root a ∧ isInside (paths a) dir = true) := by
  intro a
  rw [mem_emit_aggregated, hleaf]

/-- C7 witness: output directory `/out`, asset 0 at `/out/a.js` referencing
asset 1 at `/tmp/b.js`: asset 0 is written and asset 1 is not. -/
theorem emit_aggregated_scoped_witness :
    (∀ x, x ∈ leavesOf (.children [.asset 0, .asset 1]) ↔
      Reachable (fun n => if n = 0 then [1] else []) 0 x) ∧
    0 ∈ emit_aggregated_assets (fun n => if n = 0 then ["out", "a.js"] else ["tmp", "b.js"])
        ["out"] (.children [.asset 0, .asset 1]) ∧
    1 ∉ emit_aggregated_assets (fun n => if n = 0 then ["out", "a.js"] else ["tmp", "b.js"])
        ["out"] (.children [.asset 0, .asset 1]) := by
  have hleaf : ∀ x, x ∈ leavesOf (.children [.asset 0, .asset 1]) ↔
      Reachable (fun n => if n = 0 then [1] else []) 0 x := by
    intro x
    rw [leavesOf_children]
    simp only [List.foldl_cons, List.foldl_nil, leavesOf_asset, List.nil_append,
      List.mem_append, List.mem_singleton]
    constructor
    · rintro (rfl | rfl)
      · exact Reachable.root
      · exact Reachable.step Reachable.root (by decide)
    · intro hr
      induction hr with
      | root => exact Or.inl rfl
      | step ha hb ih =>
          rcases ih with rfl | rfl
          · simp at hb
            exact Or.inr hb
          · simp at hb
  refine ⟨hleaf, ?_, ?_⟩
  · exact (emit_aggregated_scoped _ _ 0 _ _ hleaf 0).mpr ⟨Reachable.root, by decide⟩
  · intro hmem
    have hr := (emit_aggregated_scoped (fun n => if n = 0 then ["out", "a.js"]
      else ["tmp", "b.js"]) (fun n => if n = 0 then [1] else []) 0 ["out"]
      (.children [.asset 0, .asset 1]) hleaf 1).mp hmem
    exact absurd hr.2 (by decide)

/-! ## Helper lemmas: top-N selection -/

theorem getLastD_irrel {α : Type} (l : List α) (h : l ≠ []) (d1 d2 : α) :
    l.getLastD d1 = l.getLastD d2 := by
  cases l with
  | nil => exact absurd rfl h
  | cons a t =>
      cases t with
      | nil => rfl
      | cons b t2 => rw [List.getLastD_cons d1 a, List.getLastD_cons d2 a]

theorem dropLast_append_getLastD {α : Type} (l : List α) (h : l ≠ []) (d : α) :
    l.dropLast ++ [l.getLastD d] = l := by
  induction l generalizing d with
  | nil => exact absurd rfl h
  | cons a t ih =>
      cases t with
      | nil => rfl
      | cons b t2 =>
          rw [List.getLastD_cons d a, List.dropLast_cons₂, List.cons_append, ih (by simp) a]

theorem insertDesc_ne_nil (t : RefEntry) (l : List RefEntry) : insertDesc t l ≠ [] := by
  cases l with
  | nil => simp [insertDesc]
  | cons x xs =>
      unfold insertDesc
      by_cases h : x.2.card < t.2.card <;> simp [h]

theorem insertDesc_length (t : RefEntry) (l : List RefEntry) :
    (insertDesc t l).length = l.length + 1 := by
  induction l with
  | nil => rfl
  | cons x xs ih =>
      unfold insertDesc
      by_cases h : x.2.card < t.2.card <;> simp [h, ih]

theorem mem_insertDesc (t : RefEntry) (l : List RefEntry) (a : RefEntry) :
    a ∈ insertDesc t l ↔ a = t ∨ a ∈ l := by
  induction l with
  | nil => simp [insertDesc]
  | cons x xs ih =>
      unfold insertDesc
      by_cases h : x.2.card < t.2.card <;> simp [h, ih] <;> tauto

theorem insertDesc_perm (t : RefEntry) (l : List RefEntry) :
    (insertDesc t l).Perm (t :: l) := by
  induction l with
  | nil => exact List.Perm.refl _
  | cons x xs ih =>
      unfold insertDesc
      by_cases h : x.2.card < t.2.card
      · rw [if_pos h]
      · rw [if_neg h]
        exact (ih.cons x).trans (List.Perm.swap t x xs)

theorem insertDesc_sorted (t : RefEntry) (l : List RefEntry)
    (h : l.Pairwise (fun a b => b.2.card ≤ a.2.card)) :
    (insertDesc t l).Pairwise (fun a b => b.2.card ≤ a.2.card) := by
  induction l with
  | nil => simp [insertDesc]
  | cons x xs ih =>
      rw [List.pairwise_cons] at h
      unfold insertDesc
      by_cases hx : x.2.card < t.2.card
      · rw [if_pos hx, List.pairwise_cons]
        refine ⟨?_, List.pairwise_cons.mpr h⟩
        intro e he
        rcases List.mem_cons.mp he with rfl | he2
        · exact Nat.le_of_lt hx
        · exact Nat.le_of_lt (Nat.lt_of_le_of_lt (h.1 e he2) hx)
      · rw [if_neg hx, List.pairwise_cons]
        refine ⟨?_, ih h.2⟩
        intro e he
        rcases (mem_insertDesc t xs e).mp he with rfl | he2
        · exact Nat.le_of_not_lt hx
        · exact h.1 e he2

theorem trInner_all_small (xs : List RefEntry) (cur : RefEntry) (tlen : Nat)
    (h : ∀ e ∈ xs, e.2.card < tlen) :
    trInner xs cur tlen = ((cur :: xs).dropLast, xs.getLastD cur) := by
  induction xs generalizing cur with
  | nil => rfl
  | cons x xs ih =>
      have hx : x.2.card < tlen := h x (List.mem_cons_self x xs)
      unfold trInner
      rw [if_pos hx, ih x (fun e he => h e (List.mem_cons_of_mem x he))]
      rw [List.getLastD_cons cur x, List.dropLast_cons₂]

theorem trInner_sorted (top : List RefEntry) (t : RefEntry)
    (hs : top.Pairwise (fun a b => b.2.card ≤ a.2.card)) :
    trInner top t t.2.card =
      ((insertDesc t top).dropLast, (insertDesc t top).getLastD t) := by
  induction top with
  | nil => rfl
  | cons x xs ih =>
      rw [List.pairwise_cons] at hs
      unfold trInner insertDesc
      by_cases hx : x.2.card < t.2.card
      · rw [if_pos hx, if_pos hx,
          trInner_all_small xs x t.2.card
            (fun e he => Nat.lt_of_le_of_lt (hs.1 e he) hx)]
        rw [List.dropLast_cons₂, List.getLastD_cons t t, List.getLastD_cons t x]
      · rw [if_neg hx, if_neg hx, ih hs.2]
        have hne := insertDesc_ne_nil t xs
        rw [List.getLastD_cons t x, getLastD_irrel _ hne x t]
        cases hI : insertDesc t xs with
        | nil => exact absurd hI hne
        | cons i is => rw [List.dropLast_cons₂]

theorem insertDesc_cons (t x : RefEntry) (xs : List RefEntry) :
    insertDesc t (x :: xs) =
      if x.2.card < t.2.card then t :: x :: xs else x :: insertDesc t xs := rfl

theorem dropLast_cons_ne {α : Type} (x : α) (l : List α) (h : l ≠ []) :
    (x :: l).dropLast = x :: l.dropLast := by
  cases l with
  | nil => exact absurd rfl h
  | cons a t => rw [List.dropLast_cons₂]

theorem trStep_sorted (top : List RefEntry) (t : RefEntry)
    (hs : top.Pairwise (fun a b => b.2.card ≤ a.2.card)) :
    trStep top t =
      if top.length < 5 then insertDesc t top else (insertDesc t top).dropLast := by
  unfold trStep
  rw [trInner_sorted top t hs]
  show (if (insertDesc t top).dropLast.length < 5 then
      (insertDesc t top).dropLast ++ [(insertDesc t top).getLastD t]
    else (insertDesc t top).dropLast) = _
  have hlen : (insertDesc t top).dropLast.length = top.length := by
    rw [List.length_dropLast, insertDesc_length]
    omega
  rw [hlen]
  by_cases h : top.length < 5
  · rw [if_pos h, if_pos h, dropLast_append_getLastD _ (insertDesc_ne_nil t top) t]
  · rw [if_neg h, if_neg h]

theorem dropLast_cons_take {α : Type} (n : Nat) (x : α) (xs : List α) (h : n ≤ xs.length) :
    (x :: xs.take n).dropLast = (x :: xs).take n := by
  induction n generalizing x xs with
  | zero => rfl
  | succ n ih =>
      cases xs with
      | nil => simp at h
      | cons y ys =>
          rw [List.take_succ_cons, List.dropLast_cons₂,
            ih y ys (Nat.le_of_succ_le_succ h), List.take_succ_cons]

theorem insertDesc_take (t : RefEntry) (n : Nat) :
    ∀ (s : List RefEntry), n ≤ s.length →
      (insertDesc t (s.take n)).dropLast = (insertDesc t s).take n := by
  induction n with
  | zero => intro s _; rfl
  | succ n ih =>
      intro s h
      cases s with
      | nil => simp at h
      | cons y ys =>
          rw [List.take_succ_cons]
          by_cases hy : y.2.card < t.2.card
          · rw [insertDesc_cons, if_pos hy, insertDesc_cons, if_pos hy,
              List.dropLast_cons₂, dropLast_cons_take n y ys (Nat.le_of_succ_le_succ h),
              List.take_succ_cons]
          · rw [insertDesc_cons, if_neg hy, insertDesc_cons, if_neg hy,
              dropLast_cons_ne y _ (insertDesc_ne_nil t _),
              ih ys (Nat.le_of_succ_le_succ h), List.take_succ_cons]

theorem insortDesc_append_singleton (l : List RefEntry) (t : RefEntry) :
    insortDesc (l ++ [t]) = insertDesc t (insortDesc l) := by
  unfold insortDesc
  rw [List.foldl_append]
  rfl

theorem insortDesc_sorted (l : List RefEntry) :
    (insortDesc l).Pairwise (fun a b => b.2.card ≤ a.2.card) := by
  have H : ∀ (l acc : List RefEntry), acc.Pairwise (fun a b => b.2.card ≤ a.2.card) →
      (l.foldl (fun s t => insertDesc t s) acc).Pairwise (fun a b => b.2.card ≤ a.2.card) := by
    intro l
    induction l with
    | nil => exact fun _ h => h
    | cons t rest ih => exact fun acc h => ih _ (insertDesc_sorted t acc h)
  exact H l [] List.Pairwise.nil

theorem insortDesc_perm (l : List RefEntry) : (insortDesc l).Perm l := by
  have H : ∀ (l acc : List RefEntry),
      (l.foldl (fun s t => insertDesc t s) acc).Perm (acc ++ l) := by
    intro l
    induction l with
    | nil => intro acc; rw [List.append_nil]; exact List.Perm.refl acc
    | cons t rest ih =>
        intro acc
        refine (ih (insertDesc t acc)).trans ?_
        refine (List.Perm.append_right rest (insertDesc_perm t acc)).trans ?_
        exact List.perm_middle.symm
  exact H l []

theorem top_references_take (l : List RefEntry) :
    top_references l = (insortDesc l).take 5 := by
  induction l using List.reverseRecOn with
  | nil => rfl
  | append_singleton l t ih =>
      unfold top_references at ih ⊢
      rw [List.foldl_append, List.foldl_cons, List.foldl_nil, ih]
      rw [trStep_sorted _ t
        (List.Pairwise.sublist (List.take_sublist 5 _) (insortDesc_sorted l))]
      rw [insortDesc_append_singleton]
      by_cases hlen : (insortDesc l).length < 5
      · have ht : (insortDesc l).take 5 = insortDesc l :=
          List.take_of_length_le (Nat.le_of_lt hlen)
        have hc : ((insortDesc l).take 5).length < 5 := by rw [ht]; exact hlen
        rw [if_pos hc, ht,
          List.take_of_length_le (by rw [insertDesc_length]; omega)]
      · have hc : ¬ ((insortDesc l).take 5).length < 5 := by
          rw [List.length_take]
          omega
        rw [if_neg hc, insertDesc_take t 5 _ (Nat.le_of_not_lt hlen)]

theorem mem_take_strict_sorted :
    ∀ (s : List RefEntry), s.Pairwise (fun a b => b.2.card < a.2.card) →
    ∀ (N : Nat) (e : RefEntry), e ∈ s.take N ↔
      (e ∈ s ∧ s.countP (fun x => decide (e.2.card < x.2.card)) < N) := by
  intro s
  induction s with
  | nil => intro _ N e; simp
  | cons x xs ih =>
      intro hp N e
      rw [List.pairwise_cons] at hp
      cases N with
      | zero => simp
      | succ n =>
          rw [List.take_succ_cons, List.countP_cons]
          by_cases he : e = x
          · subst he
            have hc0 : xs.countP (fun x => decide (e.2.card < x.2.card)) = 0 :=
              List.countP_eq_zero.mpr (fun a ha => by
                simp only [decide_eq_true_eq]
                exact Nat.not_lt.mpr (Nat.le_of_lt (hp.1 a ha)))
            constructor
            · intro _
              refine ⟨List.mem_cons_self e xs, ?_⟩
              rw [hc0]
              simp
            · intro _
              exact List.mem_cons_self e (xs.take n)
          · by_cases hm : e ∈ xs
            · have hlt : e.2.card < x.2.card := hp.1 e hm
              have hpx : (decide (e.2.card < x.2.card)) = true := by simp [hlt]
              rw [if_pos hpx, List.mem_cons, List.mem_cons]
              have ihn := ih hp.2 n e
              constructor
              · rintro (h | h)
                · exact absurd h he
                · have h2 := ihn.mp h
                  exact ⟨Or.inr h2.1, Nat.succ_lt_succ h2.2⟩
              · rintro ⟨_, hcnt⟩
                exact Or.inr (ihn.mpr ⟨hm, Nat.lt_of_succ_lt_succ hcnt⟩)
            · constructor
              · intro h
                rcases List.mem_cons.mp h with h1 | h1
                · exact absurd h1 he
                · exact absurd (List.take_subset n xs h1) hm
              · rintro ⟨hmem, _⟩
                rcases List.mem_cons.mp hmem with h1 | h1
                · exact absurd h1 he
                · exact absurd h1 hm

theorem insortDesc_strict_sorted (l : List RefEntry)
    (hd : l.Pairwise (fun a b => a.2.card ≠ b.2.card)) :
    (insortDesc l).Pairwise (fun a b => b.2.card < a.2.card) := by
  have h1 := insortDesc_sorted l
  have h2 : (insortDesc l).Pairwise (fun a b => a.2.card ≠ b.2.card) :=
    ((insortDesc_perm l).pairwise_iff (fun hab => Ne.symm hab)).mpr hd
  exact (h1.and h2).imp (fun hab => Nat.lt_of_le_of_ne hab.1 (Ne.symm hab.2))

theorem top_references_mem_char (l : List RefEntry)
    (hd : l.Pairwise (fun a b => a.2.card ≠ b.2.card)) (e : RefEntry) :
    e ∈ top_references l ↔
      (e ∈ l ∧ l.countP (fun x => decide (e.2.card < x.2.card)) < 5) := by
  rw [top_references_take,
    mem_take_strict_sorted _ (insortDesc_strict_sorted l hd) 5 e,
    (insortDesc_perm l).mem_iff, (insortDesc_perm l).countP_eq]


/-- C5: for a list of (asset, reference-set) entries with pairwise distinct
reference-set cardinalities: with at least 5 entries, `top_references`
returns exactly 5 entries, and an entry is kept if and only if fewer than 5
input entries have a strictly larger reference set — i.e. exactly the 5
largest — and this membership is the same for every iteration order of the
input; with fewer than 5 entries it returns all of them. -/
theorem top_references_spec (l : List RefEntry)
    (hd : l.Pairwise (fun a b => a.2.card ≠ b.2.card)) :
    (5 ≤ l.length →
      (top_references l).length = 5 ∧
      (∀ e, e ∈ top_references l ↔
        (e ∈ l ∧ l.countP (fun x => decide (e.2.card < x.2.card)) < 5)) ∧
      (∀ l₂, l.Perm l₂ → ∀ e, e ∈ top_references l₂ ↔ e ∈ top_references l)) ∧
    (l.length < 5 → (top_references l).Perm l) := by
  constructor
  · intro hlen
    refine ⟨?_, fun e => top_references_mem_char l hd e, ?_⟩
    · rw [top_references_take, List.length_take, (insortDesc_perm l).length_eq]
      omega
    · intro l₂ hperm e
      have hd₂ : l₂.Pairwise (fun a b => a.2.card ≠ b.2.card) :=
        (hperm.pairwise_iff (fun hab => Ne.symm hab)).mp hd
      rw [top_references_mem_char l₂ hd₂ e, top_references_mem_char l hd e,
        ← hperm.countP_eq]
      simp [hperm.mem_iff]
  · intro hlen
    rw [top_references_take,
      List.take_of_length_le (by rw [(insortDesc_perm l).length_eq]; omega)]
    exact insortDesc_perm l

/-- C5 witness: 7 entries with distinct reference-set sizes 0..6; the
selection keeps exactly 5, among them the largest entry. -/
theorem top_references_spec_witness :
    ([((0 : Nat), (∅ : Finset Nat)), (1, {0}), (2, {0, 1}), (3, {0, 1, 2}),
        (4, {0, 1, 2, 3}), (5, {0, 1, 2, 3, 4}),
        (6, {0, 1, 2, 3, 4, 5})].Pairwise (fun a b => a.2.card ≠ b.2.card)) ∧
    5 ≤ ([((0 : Nat), (∅ : Finset Nat)), (1, {0}), (2, {0, 1}), (3, {0, 1, 2}),
        (4, {0, 1, 2, 3}), (5, {0, 1, 2, 3, 4}), (6, {0, 1, 2, 3, 4, 5})] :
          List RefEntry).length ∧
    (top_references [((0 : Nat), (∅ : Finset Nat)), (1, {0}), (2, {0, 1}), (3, {0, 1, 2}),
        (4, {0, 1, 2, 3}), (5, {0, 1, 2, 3, 4}), (6, {0, 1, 2, 3, 4, 5})]).length = 5 ∧
    ((6, {0, 1, 2, 3, 4, 5}) ∈ top_references
      [((0 : Nat), (∅ : Finset Nat)), (1, {0}), (2, {0, 1}), (3, {0, 1, 2}),
        (4, {0, 1, 2, 3}), (5, {0, 1, 2, 3, 4}), (6, {0, 1, 2, 3, 4, 5})]) :=
  ⟨by decide, by decide,
    ((top_references_spec _ (by decide)).1 (by decide)).1,
    (((top_references_spec _ (by decide)).1 (by decide)).2.1 _).mpr (by decide)⟩

end Turbopack
